import Mathlib

/-!
A shallow embedding of the IPO ATH scanner (`ipo_scanner.py`) together with
proofs about its qualification, fetch, ATH-evaluation and alert logic.

Numeric price data is modelled by exact rationals; a pandas `DataFrame` is
modelled by its list of rows plus presence flags for the two columns the
scanner inspects (`"High"`, `"Close"`).
-/

namespace IpoScanner

/-- One OHLC bar as consumed by the scanner; only the fields the code reads
(the timestamp index, `High` and `Close`) are modelled. -/
structure Bar where
  ts : Int
  high : ℚ
  close : ℚ
deriving DecidableEq

/-- A price-history frame: the rows, plus flags recording whether the
`"High"` / `"Close"` columns are present (the code tests for both). -/
structure Frame where
  bars : List Bar
  hasHigh : Bool
  hasClose : Bool
deriving DecidableEq

/-- The `ATHInfo` dataclass of the source. -/
structure ATHInfo where
  ath : ℚ
  ath_index : Int
  candles_since_ath : Nat
  total_candles : Nat
deriving DecidableEq

/-- Python `max()` over a nonempty list of numbers (`hist["High"].max()`);
the `[]` case is arbitrary (the code never takes it: it guards on emptiness). -/
def listMax : List ℚ → ℚ
  | [] => 0
  | [x] => x
  | x :: y :: l => max x (listMax (y :: l))

/-- The `"High"` column of a frame. -/
def frameHighs (h : Frame) : List ℚ := h.bars.map (fun b => b.high)

/-- `float(hist["High"].max())`. -/
def athValue (h : Frame) : ℚ := listMax (frameHighs h)

/-- The 0-based position of the first occurrence of the maximal `High`
(`idxmax` returns the label of the first maximum; `index.get_loc` maps the
label back to its position). -/
def athPosOf (h : Frame) : Nat :=
  (frameHighs h).findIdx (fun x => decide (x = athValue h))

/-- `compute_ath_from_hist`: `None` for a missing or empty history or one
without a `"High"` column; otherwise the ATH value, its index label, the
candles elapsed since it, and the total bar count.  When the index label of
the maximum is duplicated, pandas `get_loc` does not return a plain position
and the surrounding `except` turns the failure into `None`; the `count`
guard models that path. -/
def compute_ath_from_hist (hist : Option Frame) : Option ATHInfo :=
  match hist with
  | none => none
  | some h =>
    if h.bars.isEmpty then none
    else if !h.hasHigh then none
    else
      let total := h.bars.length
      let p := athPosOf h
      let tsList := h.bars.map (fun b => b.ts)
      let label := tsList.getD p 0
      if tsList.count label ≠ 1 then none
      else some ⟨athValue h, label, total - p - 1, total⟩

/-- Python `round(x, 2)` on exact rationals: round half to even at two
decimal places. -/
def round2 (x : ℚ) : ℚ :=
  let y := x * 100
  let f : Int := Rat.floor y
  let frac := y - (f : ℚ)
  let n : Int :=
    if frac < 1 / 2 then f
    else if 1 / 2 < frac then f + 1
    else if f % 2 = 0 then f else f + 1
  (n : ℚ) / 100

/-- `float(hist["Close"].iloc[-1])` (0 for an empty frame; the code only
reads it after the non-emptiness guard of `compute_ath_from_hist`). -/
def lastClose (h : Frame) : ℚ := (h.bars.getLast?.map (fun b => b.close)).getD 0

/-- The per-identifier body of the loop in `scan_ipos`: skip on missing
history, missing ATH info or a too-recent ATH, skip when the current close
exceeds the ATH (negative distance), and otherwise alert with the rounded
percentage distance when the close is within the threshold of the ATH. -/
def scan_step (threshold : ℚ) (hist : Option Frame) : Option ℚ :=
  match hist with
  | none => none
  | some h =>
    match compute_ath_from_hist (some h) with
    | none => none
    | some info =>
      if info.candles_since_ath < 3 then none
      else
        let current := lastClose h
        let ath := info.ath
        let distance_pct := ((ath - current) / ath) * 100
        if distance_pct < 0 then none
        else if ath * (1 - threshold) ≤ current then some (round2 distance_pct)
        else none

/-- `scan_ipos` over the fetched histories: the first component is the
returned alert list `(symbol, rounded distance)`, the second records the
symbols for which the Telegram dispatcher was invoked (`dry_run` suppresses
dispatch but not alert collection). -/
def scan_ipos (threshold : ℚ) (dry_run : Bool) :
    List (String × Option Frame) → List (String × ℚ) × List String
  | [] => ([], [])
  | p :: rest =>
    let r := scan_ipos threshold dry_run rest
    match scan_step threshold p.2 with
    | none => r
    | some d => ((p.1, d) :: r.1, if dry_run then r.2 else p.1 :: r.2)

/-- One row of the NSE `EQUITY_L.csv` after `pd.to_datetime(..,
errors="coerce")` on the listing-date column: `dateOfListing` is `none`
exactly when coercion produced `NaT`; dates are modelled as day numbers. -/
structure EquityRow where
  symbol : String
  series : String
  dateOfListing : Option Int
deriving DecidableEq

/-- Python `str.strip()` / pandas `.str.strip()`: drop leading and trailing
whitespace. -/
def strTrim (s : String) : String :=
  ⟨(((s.data.dropWhile Char.isWhitespace).reverse).dropWhile
      Char.isWhitespace).reverse⟩

/-- Helper for `uniqueList`: drop elements already seen. -/
def uniqueAux (seen : List String) : List String → List String
  | [] => []
  | x :: xs => if x ∈ seen then uniqueAux seen xs else x :: uniqueAux (x :: seen) xs

/-- `pd.Series.unique`: keep the first occurrence of each element, in order. -/
def uniqueList (l : List String) : List String := uniqueAux [] l

/-- `get_recent_ipos`: drop rows whose listing date failed to parse, keep
`SERIES == "EQ"` (stripped), keep listing dates at or after
`now - min_listing_days`, and return the stripped symbols, de-duplicated. -/
def get_recent_ipos (rows : List EquityRow) (min_listing_days : Int)
    (now : Int) : List String :=
  let withDate := rows.filter (fun r => r.dateOfListing.isSome)
  let eqRows := withDate.filter (fun r => strTrim r.series == "EQ")
  let cutoff := now - min_listing_days
  let recent := eqRows.filter (fun r => decide (cutoff ≤ r.dateOfListing.getD 0))
  uniqueList (recent.map (fun r => strTrim r.symbol))

/-- `YF_SUFFIX = ".NS"`. -/
def YF_SUFFIX : String := ".NS"

/-- Ascending order on bars by timestamp, the order `sort_index` sorts by. -/
def barLE (a b : Bar) : Prop := a.ts ≤ b.ts

instance : DecidableRel barLE := fun a b => inferInstanceAs (Decidable (a.ts ≤ b.ts))

instance : IsTotal Bar barLE := ⟨fun a b => Int.le_total a.ts b.ts⟩

instance : IsTrans Bar barLE := ⟨fun _ _ _ h1 h2 => le_trans h1 h2⟩

/-- The body of the `for sym in symbols` loop of `batch_fetch_histories`:
the provider result for `sym + YF_SUFFIX` (`raw` models `extract_frame` on
the downloaded batch), turned into `none` when absent, empty or missing the
`"High"` or `"Close"` column, and otherwise sorted ascending by timestamp
(`sort_index`, a stable sort). -/
def fetch_result (raw : String → Option Frame) (sym : String) : Option Frame :=
  match raw (sym ++ YF_SUFFIX) with
  | none => none
  | some f =>
    if f.bars.isEmpty || !f.hasHigh || !f.hasClose then none
    else some { f with bars := List.insertionSort barLE f.bars }

/-- Python `dict` assignment `d[k] = v`: overwrite in place if the key is
present, else append. -/
def dictInsert (d : List (String × Option Frame)) (k : String)
    (v : Option Frame) : List (String × Option Frame) :=
  if d.any (fun p => p.1 == k) then
    d.map (fun p => if p.1 == k then (k, v) else p)
  else d ++ [(k, v)]

/-- `batch_fetch_histories`: build the `results` dict by iterating over the
requested symbols in order. -/
def batch_fetch_histories (symbols : List String)
    (raw : String → Option Frame) : List (String × Option Frame) :=
  symbols.foldl (fun acc sym => dictInsert acc sym (fetch_result raw sym)) []

/-- Modelled from the spec: the History Store's incremental merge is not
implemented in the source (`batch_fetch_histories` refetches the full
history each run); per the spec a new bar overwrites any existing bar
sharing its timestamp and the merged series stays sorted ascending and
duplicate-free. -/
def merge_bar : List Bar → Bar → List Bar
  | [], b => [b]
  | x :: xs, b =>
    if b.ts < x.ts then b :: x :: xs
    else if b.ts = x.ts then b :: xs
    else x :: merge_bar xs b

/-- Strict ascending timestamp order: sortedness plus timestamp
duplicate-freeness of a series. -/
def tsSorted (l : List Bar) : Prop := List.Pairwise (fun a b => a.ts < b.ts) l

/-- The bar of the worked scenario: 50 bars, all highs 100 except a maximum
150 at position 40, last close 148. -/
def scenarioBar (i : Nat) : Bar :=
  { ts := (i : Int),
    high := if i = 40 then 150 else 100,
    close := if i = 49 then 148 else 100 }

/-- The worked 50-bar scenario history. -/
def scenarioFrame : Frame :=
  { bars := (List.range 50).map scenarioBar, hasHigh := true, hasClose := true }

/-!  ## Helper lemmas  -/

theorem listMax_mem : ∀ {l : List ℚ}, l ≠ [] → listMax l ∈ l := by
  intro l
  induction l with
  | nil => simp
  | cons x xs ih =>
    intro _
    cases xs with
    | nil => simp [listMax]
    | cons y ys =>
      rw [listMax]
      rcases le_total x (listMax (y :: ys)) with hle | hle
      · rw [max_eq_right hle]
        exact List.mem_cons_of_mem _ (ih (by simp))
      · rw [max_eq_left hle]
        exact List.mem_cons_self _ _

theorem le_listMax : ∀ {l : List ℚ} {x : ℚ}, x ∈ l → x ≤ listMax l := by
  intro l
  induction l with
  | nil => simp
  | cons a xs ih =>
    intro x hx
    cases xs with
    | nil =>
      rw [List.mem_singleton] at hx
      simp [listMax, hx]
    | cons y ys =>
      rw [listMax]
      rcases List.mem_cons.mp hx with rfl | hmem
      · exact le_max_left _ _
      · exact le_trans (ih hmem) (le_max_right _ _)

theorem frameHighs_ne_nil {h : Frame} (hne : h.bars ≠ []) : frameHighs h ≠ [] := by
  simpa [frameHighs] using hne

theorem athValue_mem {h : Frame} (hne : h.bars ≠ []) : athValue h ∈ frameHighs h :=
  listMax_mem (frameHighs_ne_nil hne)

theorem athPosOf_lt {h : Frame} (hne : h.bars ≠ []) : athPosOf h < h.bars.length := by
  have hlt : athPosOf h < (frameHighs h).length :=
    List.findIdx_lt_length_of_exists ⟨athValue h, athValue_mem hne, by simp⟩
  simpa [frameHighs] using hlt

theorem athPos_high {h : Frame} (hne : h.bars ≠ []) :
    (frameHighs h).getD (athPosOf h) 0 = athValue h := by
  have hlt : athPosOf h < (frameHighs h).length := by
    simpa [frameHighs] using athPosOf_lt hne
  rw [List.getD_eq_getElem _ _ hlt]
  have := @List.findIdx_getElem ℚ (fun x => decide (x = athValue h))
    (frameHighs h) hlt
  simpa [athPosOf] using this

theorem athPos_first {h : Frame} {j : Nat} (hj : j < athPosOf h) :
    (frameHighs h).getD j 0 ≠ athValue h := by
  have hjl : j < (frameHighs h).length :=
    lt_of_lt_of_le hj (List.findIdx_le_length _)
  rw [List.getD_eq_getElem _ _ hjl]
  have := @List.not_of_lt_findIdx ℚ (fun x => decide (x = athValue h))
    (frameHighs h) j hj
  simpa using this

theorem compute_ath_eq (h : Frame) (hne : h.bars ≠ []) (hh : h.hasHigh = true)
    (hnd : (h.bars.map (fun b => b.ts)).Nodup) :
    compute_ath_from_hist (some h) =
      some ⟨athValue h, (h.bars.map (fun b => b.ts)).getD (athPosOf h) 0,
            h.bars.length - athPosOf h - 1, h.bars.length⟩ := by
  have hlab : (h.bars.map (fun b => b.ts)).getD (athPosOf h) 0
      ∈ h.bars.map (fun b => b.ts) := by
    have hlt : athPosOf h < (h.bars.map (fun b => b.ts)).length := by
      simpa using athPosOf_lt hne
    rw [List.getD_eq_getElem _ _ hlt]
    exact List.getElem_mem hlt
  have hcount : (h.bars.map (fun b => b.ts)).count
      ((h.bars.map (fun b => b.ts)).getD (athPosOf h) 0) = 1 :=
    List.count_eq_one_of_mem hnd hlab
  simp only [compute_ath_from_hist]
  rw [if_neg (by simp [List.isEmpty_iff, hne]), if_neg (by simp [hh]),
    if_neg (by simp only [ne_eq, not_not]; exact hcount)]

theorem compute_ath_some_shape {h : Frame} {info : ATHInfo}
    (hc : compute_ath_from_hist (some h) = some info) :
    info.ath = athValue h ∧
    info.candles_since_ath = h.bars.length - athPosOf h - 1 ∧
    info.total_candles = h.bars.length := by
  simp only [compute_ath_from_hist] at hc
  split at hc
  · cases hc
  · split at hc
    · cases hc
    · split at hc
      · cases hc
      · cases hc
        exact ⟨rfl, rfl, rfl⟩

theorem scan_step_eq (th : ℚ) (h : Frame) (hne : h.bars ≠ [])
    (hh : h.hasHigh = true) (hnd : (h.bars.map (fun b => b.ts)).Nodup)
    (hguard : ¬(h.bars.length - athPosOf h - 1 < 3)) :
    scan_step th (some h) =
      if ((athValue h - lastClose h) / athValue h) * 100 < 0 then none
      else if athValue h * (1 - th) ≤ lastClose h then
        some (round2 (((athValue h - lastClose h) / athValue h) * 100))
      else none := by
  simp only [scan_step, compute_ath_eq h hne hh hnd]
  rw [if_neg hguard]

theorem round2_nonneg {x : ℚ} (hx : 0 ≤ x) : 0 ≤ round2 x := by
  unfold round2
  have hy : (0 : ℚ) ≤ x * 100 := by positivity
  have hf : (0 : Int) ≤ Rat.floor (x * 100) := Rat.le_floor.mpr (by exact_mod_cast hy)
  refine div_nonneg ?_ (by norm_num)
  have hn : (0 : Int) ≤
      (if x * 100 - (Rat.floor (x * 100) : ℚ) < 1 / 2 then Rat.floor (x * 100)
       else if 1 / 2 < x * 100 - (Rat.floor (x * 100) : ℚ) then Rat.floor (x * 100) + 1
       else if Rat.floor (x * 100) % 2 = 0 then Rat.floor (x * 100)
       else Rat.floor (x * 100) + 1) := by
    split
    · exact hf
    · split
      · omega
      · split
        · exact hf
        · omega
  exact_mod_cast hn

/-- A history whose all-time high sits on the very last bar (too recent). -/
def recentAthFrame : Frame :=
  { bars := [⟨0, 1, 1⟩, ⟨1, 2, 2⟩, ⟨2, 3, 3⟩, ⟨3, 4, 4⟩],
    hasHigh := true, hasClose := true }

/-- A history with a tied maximum high (7 at positions 1 and 2). -/
def tieFrame : Frame :=
  { bars := [⟨0, 5, 1⟩, ⟨1, 7, 1⟩, ⟨2, 7, 2⟩, ⟨3, 1, 3⟩, ⟨4, 1, 4⟩],
    hasHigh := true, hasClose := true }

/-!  ## Claims  -/

/-- C1: for every history whose evaluation passes the recency guard, the
identifier qualifies for alert iff `current ≥ ath_value * (1 - threshold)`,
where `current` is the close of the last bar; and when
`current > ath_value`, no alert is produced (the new-high breach case never
alerts).  Timestamp duplicate-freeness is the data-model invariant on
series; a positive ATH makes the sign of the distance meaningful. -/
theorem alert_iff_within_threshold (h : Frame) (th : ℚ)
    (hne : h.bars ≠ []) (hh : h.hasHigh = true)
    (hnd : (h.bars.map (fun b => b.ts)).Nodup)
    (hath : 0 < athValue h)
    (hguard : 3 ≤ h.bars.length - athPosOf h - 1) :
    (lastClose h ≤ athValue h →
      ((scan_step th (some h)).isSome ↔ athValue h * (1 - th) ≤ lastClose h))
    ∧ (athValue h < lastClose h → scan_step th (some h) = none) := by
  rw [scan_step_eq th h hne hh hnd (by omega)]
  constructor
  · intro hle
    have hd0 : 0 ≤ ((athValue h - lastClose h) / athValue h) * 100 :=
      mul_nonneg (div_nonneg (sub_nonneg.mpr hle) hath.le) (by norm_num)
    rw [if_neg (not_lt.mpr hd0)]
    rcases le_or_lt (athValue h * (1 - th)) (lastClose h) with hc | hc
    · rw [if_pos hc]
      simp [hc]
    · rw [if_neg (not_le.mpr hc)]
      simp [not_le.mpr hc]
  · intro hgt
    have hd : ((athValue h - lastClose h) / athValue h) * 100 < 0 :=
      mul_neg_of_neg_of_pos
        (div_neg_of_neg_of_pos (sub_neg.mpr hgt) hath) (by norm_num)
    rw [if_pos hd]

set_option maxRecDepth 100000 in
/-- Witness for C1 at the 50-bar scenario: the hypotheses hold and an alert
is produced. -/
theorem alert_iff_within_threshold_witness :
    (scan_step (4 / 100) (some scenarioFrame)).isSome := by
  have h := alert_iff_within_threshold scenarioFrame (4 / 100)
    (by with_unfolding_all decide) rfl
    (by with_unfolding_all decide)
    (by with_unfolding_all decide)
    (by with_unfolding_all decide)
  exact (h.1 (by with_unfolding_all decide)).mpr (by with_unfolding_all decide)

/-- C2: for every history and every threshold, if
`total_bar_count - ath_position - 1 < 3` (the all-time high occurred within
the last 3 bars), then no alert is produced for that identifier. -/
theorem recency_guard_blocks_alert (h : Frame) (th : ℚ)
    (hne : h.bars ≠ []) (hh : h.hasHigh = true)
    (hnd : (h.bars.map (fun b => b.ts)).Nodup)
    (hrecent : h.bars.length - athPosOf h - 1 < 3) :
    scan_step th (some h) = none := by
  simp only [scan_step, compute_ath_eq h hne hh hnd]
  rw [if_pos hrecent]

/-- Witness for C2: a 4-bar history whose maximum high is on the last bar
produces no alert at any threshold, here 5%. -/
theorem recency_guard_blocks_alert_witness :
    scan_step (5 / 100) (some recentAthFrame) = none :=
  recency_guard_blocks_alert recentAthFrame (5 / 100)
    (by with_unfolding_all decide) rfl
    (by with_unfolding_all decide)
    (by with_unfolding_all decide)

/-- C3: for every non-empty history with a `"High"` field (satisfying the
data-model invariant of duplicate-free timestamps), the evaluator's
`ath_value` equals the maximum of the `"High"` field over all bars, and
`ath_position` (recovered as `total_candles - 1 - candles_since_ath`) is
the position of the first occurrence of that maximum: every strictly
earlier position carries a strictly smaller high. -/
theorem ath_is_first_max (h : Frame) (hne : h.bars ≠ [])
    (hh : h.hasHigh = true) (hnd : (h.bars.map (fun b => b.ts)).Nodup) :
    ∃ info, compute_ath_from_hist (some h) = some info ∧
      info.total_candles = h.bars.length ∧
      (∀ b ∈ h.bars, b.high ≤ info.ath) ∧
      ∃ i, i < h.bars.length ∧
        i = h.bars.length - 1 - info.candles_since_ath ∧
        (frameHighs h).getD i 0 = info.ath ∧
        ∀ j, j < i → (frameHighs h).getD j 0 ≠ info.ath := by
  refine ⟨_, compute_ath_eq h hne hh hnd, rfl, ?_,
    athPosOf h, athPosOf_lt hne, ?_, athPos_high hne,
    fun j hj => athPos_first hj⟩
  · intro b hb
    exact le_listMax (List.mem_map.mpr ⟨b, hb, rfl⟩)
  · have := athPosOf_lt hne
    dsimp only
    omega

/-- Witness for C3 at a history with a tied maximum: the evaluator resolves
the tie to the earlier position. -/
theorem ath_is_first_max_witness :
    ∃ info, compute_ath_from_hist (some tieFrame) = some info ∧
      info.total_candles = tieFrame.bars.length ∧
      (∀ b ∈ tieFrame.bars, b.high ≤ info.ath) ∧
      ∃ i, i < tieFrame.bars.length ∧
        i = tieFrame.bars.length - 1 - info.candles_since_ath ∧
        (frameHighs tieFrame).getD i 0 = info.ath ∧
        ∀ j, j < i → (frameHighs tieFrame).getD j 0 ≠ info.ath :=
  ath_is_first_max tieFrame (by with_unfolding_all decide) rfl
    (by with_unfolding_all decide)

theorem scan_step_some {h : Frame} {th q : ℚ}
    (hs : scan_step th (some h) = some q) :
    q = round2 ((athValue h - lastClose h) / athValue h * 100) ∧ 0 ≤ q := by
  rcases hcomp : compute_ath_from_hist (some h) with _ | info
  · simp [scan_step, hcomp] at hs
  · have hshape := compute_ath_some_shape hcomp
    simp only [scan_step, hcomp] at hs
    split at hs
    · cases hs
    · split at hs
      · cases hs
      · split at hs
        · rename_i hd hcond
          rw [Option.some_inj] at hs
          rw [hshape.1] at hs hd
          refine ⟨hs.symm, ?_⟩
          rw [← hs]
          exact round2_nonneg (not_lt.mp hd)
        · cases hs

set_option maxRecDepth 100000 in
/-- C5: for every alert produced, the reported distance equals
`round(((ath_value - current) / ath_value) * 100, 2)` and is non-negative;
and on the 50-bar scenario (all highs 100 except a 150 maximum at position
40, last close 148) with threshold 0.04, the scan produces exactly the
alert with distance 1.33 and dispatches it. -/
theorem distance_percent_formula :
    (∀ (h : Frame) (th q : ℚ), scan_step th (some h) = some q →
      q = round2 ((athValue h - lastClose h) / athValue h * 100) ∧ 0 ≤ q)
    ∧ scan_ipos (4 / 100) false [("IPOX", some scenarioFrame)]
        = ([("IPOX", 133 / 100)], ["IPOX"]) := by
  constructor
  · intro h th q hs
    exact scan_step_some hs
  · with_unfolding_all rfl

set_option maxRecDepth 100000 in
/-- Witness for C5: the scenario alert's distance satisfies the formula and
is non-negative. -/
theorem distance_percent_formula_witness :
    (133 / 100 : ℚ) =
      round2 ((athValue scenarioFrame - lastClose scenarioFrame)
        / athValue scenarioFrame * 100)
    ∧ (0 : ℚ) ≤ 133 / 100 :=
  distance_percent_formula.1 scenarioFrame (4 / 100) (133 / 100)
    (by with_unfolding_all rfl)

/-- C8: a missing history, an empty history, or a history without the
required `"High"` field yields no verdict (`none`, never an error), and the
scan drops such an identifier and continues with the remaining ones
unchanged. -/
theorem no_verdict_skips :
    compute_ath_from_hist none = none
    ∧ (∀ h : Frame, h.bars = [] → compute_ath_from_hist (some h) = none)
    ∧ (∀ h : Frame, h.hasHigh = false → compute_ath_from_hist (some h) = none)
    ∧ (∀ (th : ℚ) (dry : Bool) (sym : String) (oh : Option Frame)
        (rest : List (String × Option Frame)),
        compute_ath_from_hist oh = none →
        scan_ipos th dry ((sym, oh) :: rest) = scan_ipos th dry rest) := by
  refine ⟨rfl, ?_, ?_, ?_⟩
  · intro h hb
    simp [compute_ath_from_hist, hb]
  · intro h hH
    cases hb : h.bars.isEmpty
    · simp [compute_ath_from_hist, hb, hH]
    · simp [compute_ath_from_hist, hb]
  · intro th dry sym oh rest hc
    have hstep : scan_step th oh = none := by
      cases oh with
      | none => rfl
      | some h => simp [scan_step, hc]
    simp [scan_ipos, hstep]

/-- Witness for C8: an identifier with no history at all is skipped, leaving
the scan of the remaining identifiers unchanged. -/
theorem no_verdict_skips_witness :
    scan_ipos (5 / 100) false [("NODATA", none)] = scan_ipos (5 / 100) false [] :=
  no_verdict_skips.2.2.2 (5 / 100) false "NODATA" none [] rfl

/-- C9: with the dry-run flag set the dispatcher is never invoked, while
the computed and returned alert list is identical to the non-dry-run one. -/
theorem dry_run_suppresses_dispatch :
    ∀ (th : ℚ) (hists : List (String × Option Frame)),
      (scan_ipos th true hists).2 = []
      ∧ (scan_ipos th true hists).1 = (scan_ipos th false hists).1 := by
  intro th hists
  induction hists with
  | nil => exact ⟨rfl, rfl⟩
  | cons p rest ih =>
    rcases hs : scan_step th p.2 with _ | d <;>
      simp [scan_ipos, hs, ih.1, ih.2]

theorem merge_bar_mem : ∀ {l : List Bar} {b y : Bar},
    y ∈ merge_bar l b → y = b ∨ y ∈ l := by
  intro l
  induction l with
  | nil =>
    intro b y hy
    simp [merge_bar] at hy
    exact Or.inl hy
  | cons x xs ih =>
    intro b y hy
    rw [merge_bar] at hy
    split at hy
    · rcases List.mem_cons.mp hy with rfl | hy2
      · exact Or.inl rfl
      · exact Or.inr hy2
    · split at hy
      · rcases List.mem_cons.mp hy with rfl | hy2
        · exact Or.inl rfl
        · exact Or.inr (List.mem_cons_of_mem _ hy2)
      · rcases List.mem_cons.mp hy with rfl | hy2
        · exact Or.inr (List.mem_cons_self _ _)
        · rcases ih hy2 with hb | hmem
          · exact Or.inl hb
          · exact Or.inr (List.mem_cons_of_mem _ hmem)

/-- C6 (modelled from the spec; the source has no incremental merge):
merging the same bar twice yields the same series as merging it once, and
the merged series of a strictly timestamp-sorted series stays strictly
sorted (hence duplicate-free). -/
theorem merge_bar_idem_sorted :
    (∀ (l : List Bar) (b : Bar), merge_bar (merge_bar l b) b = merge_bar l b)
    ∧ (∀ (l : List Bar) (b : Bar), tsSorted l → tsSorted (merge_bar l b)) := by
  constructor
  · intro l
    induction l with
    | nil =>
      intro b
      simp [merge_bar]
    | cons x xs ih =>
      intro b
      by_cases h1 : b.ts < x.ts
      · rw [merge_bar, if_pos h1, merge_bar, if_neg (lt_irrefl _), if_pos rfl]
      · by_cases h2 : b.ts = x.ts
        · rw [merge_bar, if_neg h1, if_pos h2, merge_bar,
            if_neg (lt_irrefl _), if_pos rfl]
        · rw [merge_bar, if_neg h1, if_neg h2, merge_bar,
            if_neg h1, if_neg h2, ih b]
  · intro l
    induction l with
    | nil =>
      intro b _
      simp [merge_bar, tsSorted]
    | cons x xs ih =>
      intro b hp
      have hp' := hp
      rw [tsSorted, List.pairwise_cons] at hp
      by_cases h1 : b.ts < x.ts
      · rw [merge_bar, if_pos h1, tsSorted, List.pairwise_cons]
        refine ⟨?_, hp'⟩
        intro y hy
        rcases List.mem_cons.mp hy with rfl | hy2
        · exact h1
        · exact lt_trans h1 (hp.1 y hy2)
      · by_cases h2 : b.ts = x.ts
        · rw [merge_bar, if_neg h1, if_pos h2, tsSorted, List.pairwise_cons]
          refine ⟨?_, hp.2⟩
          intro y hy
          rw [h2]
          exact hp.1 y hy
        · rw [merge_bar, if_neg h1, if_neg h2, tsSorted, List.pairwise_cons]
          refine ⟨?_, ih b hp.2⟩
          intro y hy
          rcases merge_bar_mem hy with rfl | hy2
          · exact lt_of_le_of_ne (not_lt.mp h1) (fun he => h2 he.symm)
          · exact hp.1 y hy2

/-- Witness for C6: merging a fresh later bar into a one-bar series keeps
the series strictly sorted. -/
theorem merge_bar_idem_sorted_witness :
    tsSorted (merge_bar [⟨1, 1, 1⟩] ⟨2, 1, 1⟩) :=
  merge_bar_idem_sorted.2 [⟨1, 1, 1⟩] ⟨2, 1, 1⟩ (by simp [tsSorted])

theorem mem_uniqueAux : ∀ (l seen : List String) (a : String),
    a ∈ uniqueAux seen l ↔ a ∈ l ∧ a ∉ seen := by
  intro l
  induction l with
  | nil =>
    intro seen a
    simp [uniqueAux]
  | cons x xs ih =>
    intro seen a
    rw [uniqueAux]
    split
    case isTrue hx =>
      rw [ih]
      constructor
      · rintro ⟨hm, hs⟩
        exact ⟨List.mem_cons_of_mem _ hm, hs⟩
      · rintro ⟨hm, hs⟩
        rcases List.mem_cons.mp hm with rfl | hm2
        · exact absurd hx hs
        · exact ⟨hm2, hs⟩
    case isFalse hx =>
      rw [List.mem_cons, ih, List.mem_cons]
      by_cases hax : a = x
      · subst hax
        simp [hx]
      · simp [hax, List.mem_cons]

theorem mem_uniqueList {a : String} {l : List String} :
    a ∈ uniqueList l ↔ a ∈ l := by
  rw [uniqueList, mem_uniqueAux]
  simp

theorem mem_get_recent_ipos {rows : List EquityRow} {d now : Int}
    {sym : String} :
    sym ∈ get_recent_ipos rows d now ↔
      ∃ r ∈ rows, (∃ t, r.dateOfListing = some t ∧ now - d ≤ t)
        ∧ strTrim r.series = "EQ" ∧ strTrim r.symbol = sym := by
  simp only [get_recent_ipos]
  rw [mem_uniqueList, List.mem_map]
  constructor
  · rintro ⟨r, hr, he⟩
    rw [List.mem_filter] at hr
    obtain ⟨hr2, hp3⟩ := hr
    rw [List.mem_filter] at hr2
    obtain ⟨hr1, hp2⟩ := hr2
    rw [List.mem_filter] at hr1
    obtain ⟨hrows, hp1⟩ := hr1
    refine ⟨r, hrows, ?_, ?_, he⟩
    · rcases ho : r.dateOfListing with _ | t
      · rw [ho] at hp1
        simp at hp1
      · refine ⟨t, rfl, ?_⟩
        rw [ho] at hp3
        simpa using hp3
    · simpa using hp2
  · rintro ⟨r, hrows, ⟨t, ht, hle⟩, hser, hsym⟩
    refine ⟨r, ?_, hsym⟩
    rw [List.mem_filter]
    refine ⟨?_, by simp [ht, hle]⟩
    rw [List.mem_filter]
    refine ⟨?_, by simp [hser]⟩
    rw [List.mem_filter]
    exact ⟨hrows, by simp [ht]⟩

/-- C4 counterexample: an identifier for which the provider reports no data
at all is nevertheless not classified as a new listing, because its listing
date (day 0, with the scan at day 1000 and a 10-day window) is old —
classification is not the bar-count/no-data rule the claim states. -/
theorem qualifier_not_bar_count_based :
    batch_fetch_histories ["OLDCO"] (fun _ => none) = [("OLDCO", none)]
    ∧ "OLDCO" ∉ get_recent_ipos [⟨"OLDCO", "EQ", some 0⟩] 10 1000 :=
  ⟨by decide, by decide⟩

/-- C4 (amended): an identifier is classified as a new listing iff some row
of the listing table has its stripped symbol, stripped series `"EQ"`, a
listing date that parsed, and that date within `min_listing_days` of the
scan time; bar counts and provider data play no role. -/
theorem qualifies_iff_recent_listing :
    ∀ (rows : List EquityRow) (min_listing_days now : Int) (sym : String),
      sym ∈ get_recent_ipos rows min_listing_days now ↔
        ∃ r ∈ rows,
          (∃ t, r.dateOfListing = some t ∧ now - min_listing_days ≤ t)
          ∧ strTrim r.series = "EQ" ∧ strTrim r.symbol = sym :=
  fun _ _ _ _ => mem_get_recent_ipos

/-- A store recording 70 daily bars for every identifier (about 100
calendar days of trading history). -/
def recordedStore : String → List Bar :=
  fun _ => (List.range 70).map
    (fun i => { ts := (i : Int), high := 100, close := 100 })

set_option maxRecDepth 10000 in
/-- C7 counterexample: an identifier with 70 ≥ 60 bars recorded and an
empty fetch window is still classified as a new listing, because its
listing date (day 900, scan at day 1000) is inside the 120-day window:
qualification never consults recorded bars, so sufficient history does not
prevent (re-)classification. -/
theorem requalifies_despite_recorded_bars :
    60 ≤ (recordedStore "NEWCO").length
    ∧ batch_fetch_histories ["NEWCO"] (fun _ => none) = [("NEWCO", none)]
    ∧ "NEWCO" ∈ get_recent_ipos [⟨"NEWCO", "EQ", some 900⟩] 120 1000 :=
  ⟨by decide, by decide, by decide⟩

/-- C7 (amended): qualification consults neither the store nor fetched
data — it is a function of the listing table and the scan time only — and
is monotone in time: an identifier that does not qualify at one scan time
never re-qualifies at any later scan time (in particular not because of a
transient empty fetch window). -/
theorem not_qualified_stays_not_qualified :
    ∀ (rows : List EquityRow) (d now1 now2 : Int) (sym : String),
      now1 ≤ now2 → sym ∉ get_recent_ipos rows d now1 →
        sym ∉ get_recent_ipos rows d now2 := by
  intro rows d n1 n2 sym hn h1 h2
  apply h1
  rw [mem_get_recent_ipos] at h2 ⊢
  obtain ⟨r, hr, ⟨t, ht, hle⟩, hser, hsym⟩ := h2
  exact ⟨r, hr, ⟨t, ht, by omega⟩, hser, hsym⟩

/-- Witness for the amended C7: an identifier outside the listing window at
day 1000 is still outside it at day 2000. -/
theorem not_qualified_stays_not_qualified_witness :
    "OLDCO2" ∉ get_recent_ipos [⟨"OLDCO2", "EQ", some 0⟩] 10 2000 :=
  not_qualified_stays_not_qualified [⟨"OLDCO2", "EQ", some 0⟩] 10 1000 2000
    "OLDCO2" (by decide) (by decide)

theorem mem_dictInsert {d : List (String × Option Frame)} {k : String}
    {v : Option Frame} {p : String × Option Frame}
    (hp : p ∈ dictInsert d k v) : p ∈ d ∨ p = (k, v) := by
  unfold dictInsert at hp
  split at hp
  · rcases List.mem_map.mp hp with ⟨q, hq, he⟩
    by_cases hqk : (q.1 == k) = true
    · rw [if_pos hqk] at he
      exact Or.inr he.symm
    · rw [if_neg hqk] at he
      exact Or.inl (he ▸ hq)
  · rcases List.mem_append.mp hp with h1 | h1
    · exact Or.inl h1
    · right
      simpa using h1

theorem keys_dictInsert (d : List (String × Option Frame)) (k : String)
    (v : Option Frame) (s : String) :
    s ∈ (dictInsert d k v).map Prod.fst ↔ s ∈ d.map Prod.fst ∨ s = k := by
  unfold dictInsert
  split
  case isTrue hany =>
    have hk : k ∈ d.map Prod.fst := by
      rcases List.any_eq_true.mp hany with ⟨q, hq, hqe⟩
      rw [beq_iff_eq] at hqe
      exact List.mem_map.mpr ⟨q, hq, hqe⟩
    have hmapeq : ((d.map (fun p => if p.1 == k then (k, v) else p)).map
        Prod.fst) = d.map Prod.fst := by
      rw [List.map_map]
      apply List.map_congr_left
      intro p hp
      by_cases h0 : (p.1 == k) = true
      · simp only [Function.comp_apply, if_pos h0]
        exact (beq_iff_eq.mp h0).symm
      · simp only [Function.comp_apply, if_neg h0]
    rw [hmapeq]
    constructor
    · exact Or.inl
    · rintro (hs | rfl)
      · exact hs
      · exact hk
  case isFalse =>
    rw [List.map_append]
    simp [List.mem_append]

theorem batch_keys_aux (raw : String → Option Frame) :
    ∀ (syms : List String) (acc : List (String × Option Frame)) (s : String),
      s ∈ ((syms.foldl
          (fun a sym => dictInsert a sym (fetch_result raw sym)) acc).map
            Prod.fst)
        ↔ s ∈ acc.map Prod.fst ∨ s ∈ syms := by
  intro syms
  induction syms with
  | nil =>
    intro acc s
    simp
  | cons x xs ih =>
    intro acc s
    rw [List.foldl_cons, ih, keys_dictInsert, List.mem_cons]
    tauto

theorem batch_values_aux (raw : String → Option Frame) :
    ∀ (syms : List String) (acc : List (String × Option Frame)),
      (∀ p ∈ acc, p.2 = fetch_result raw p.1) →
      ∀ p ∈ (syms.foldl
          (fun a sym => dictInsert a sym (fetch_result raw sym)) acc),
        p.2 = fetch_result raw p.1 := by
  intro syms
  induction syms with
  | nil =>
    intro acc hacc
    simpa using hacc
  | cons x xs ih =>
    intro acc hacc
    rw [List.foldl_cons]
    apply ih
    intro p hp
    rcases mem_dictInsert hp with h1 | h2
    · exact hacc p h1
    · rw [h2]

theorem fetch_result_some {raw : String → Option Frame} {sym : String}
    {f : Frame} (hf : fetch_result raw sym = some f) :
    f.bars ≠ [] ∧ f.hasHigh = true ∧ f.hasClose = true
    ∧ List.Pairwise barLE f.bars := by
  unfold fetch_result at hf
  rcases hr : raw (sym ++ YF_SUFFIX) with _ | f0
  · rw [hr] at hf
    cases hf
  · rw [hr] at hf
    dsimp only at hf
    split at hf
    · cases hf
    · rename_i hcond
      rw [Option.some_inj] at hf
      subst hf
      have hb : f0.bars.isEmpty = false := by
        cases hx : f0.bars.isEmpty
        · rfl
        · exact absurd (by simp [hx]) hcond
      have hH : f0.hasHigh = true := by
        cases hx : f0.hasHigh
        · exact absurd (by simp [hx]) hcond
        · rfl
      have hC : f0.hasClose = true := by
        cases hx : f0.hasClose
        · exact absurd (by simp [hx]) hcond
        · rfl
      refine ⟨?_, by simpa using hH, by simpa using hC, ?_⟩
      · intro hnil
        have hperm := List.perm_insertionSort barLE f0.bars
        simp only at hnil
        rw [hnil] at hperm
        have hb0 : f0.bars = [] := hperm.symm.eq_nil
        rw [hb0] at hb
        simp at hb
      · exact List.sorted_insertionSort barLE f0.bars

/-- C10: for every list of requested symbols, the batch fetch returns a
mapping whose key set is exactly the requested symbols, and every non-`none`
value is a non-empty series carrying both the `"High"` and `"Close"`
columns and sorted ascending by timestamp. -/
theorem batch_fetch_shape :
    ∀ (symbols : List String) (raw : String → Option Frame),
      (∀ s, s ∈ (batch_fetch_histories symbols raw).map Prod.fst ↔
        s ∈ symbols)
      ∧ ∀ sym f, (sym, some f) ∈ batch_fetch_histories symbols raw →
          f.bars ≠ [] ∧ f.hasHigh = true ∧ f.hasClose = true
          ∧ List.Pairwise barLE f.bars := by
  intro symbols raw
  constructor
  · intro s
    unfold batch_fetch_histories
    rw [batch_keys_aux]
    simp
  · intro sym f hmem
    have hv := batch_values_aux raw symbols [] (by simp) _ hmem
    exact fetch_result_some hv.symm

/-- A provider with (unsorted) data for `AAA` only. -/
def rawEx : String → Option Frame := fun t =>
  if t = "AAA" ++ YF_SUFFIX then some ⟨[⟨2, 1, 1⟩, ⟨1, 2, 2⟩], true, true⟩
  else none

/-- The sorted frame the batch fetch returns for `AAA` under `rawEx`. -/
def sortedA : Frame := ⟨[⟨1, 2, 2⟩, ⟨2, 1, 1⟩], true, true⟩

/-- Witness for C10: on a two-symbol request with data for one of them, the
requested key is present and its returned frame is non-empty, has both
columns, and is sorted. -/
theorem batch_fetch_shape_witness :
    ("AAA" ∈ (batch_fetch_histories ["AAA", "BBB"] rawEx).map Prod.fst)
    ∧ (sortedA.bars ≠ [] ∧ sortedA.hasHigh = true ∧ sortedA.hasClose = true
        ∧ List.Pairwise barLE sortedA.bars) := by
  have h := batch_fetch_shape ["AAA", "BBB"] rawEx
  exact ⟨(h.1 "AAA").mpr (by decide), h.2 "AAA" sortedA (by decide)⟩

end IpoScanner
